import Mathlib

/-!
Verification of the claude-provider tool (src/main.rs): a shallow
embedding of its provider-profile store, environment-block builder,
settings-swap transaction and shell-function text-block editor, together
with theorems settling the specification's claims.
-/

set_option maxRecDepth 10000

namespace ClaudeProvider

/-! ## JSON values

Rust side: `serde_json::Value`.  Objects are modelled as association
lists in insertion order; every object built by this program has
pairwise-distinct keys, so the list determines the map. -/

inductive JVal where
  | null
  | bool (b : Bool)
  | num (n : Int)
  | str (s : String)
  | arr (xs : List JVal)
  | obj (fields : List (String × JVal))

/-- Rust side: `Value::as_object_mut` — `some` exactly on objects. -/
def asObject : JVal → Option (List (String × JVal))
  | .obj fields => some fields
  | _ => none

/-- Rust side: `serde_json::Map::insert` — replace the value at an existing
key, else append the new entry. -/
def insertKey (fields : List (String × JVal)) (k : String) (v : JVal) :
    List (String × JVal) :=
  if fields.any (fun p => p.1 = k) then
    fields.map (fun p => if p.1 = k then (k, v) else p)
  else
    fields ++ [(k, v)]

/-! ## EnvSettings and build_env_object (src/main.rs lines 69-89, 476-508) -/

/-- Rust side: `struct EnvSettings` (src/main.rs lines 69-89): the nine
optional environment fields of a provider profile. -/
structure EnvSettings where
  anthropic_base_url : Option String
  anthropic_auth_token : Option String
  api_timeout_ms : Option String
  claude_code_disable_nonessential_traffic : Option Int
  anthropic_model : Option String
  anthropic_small_fast_model : Option String
  anthropic_default_sonnet_model : Option String
  anthropic_default_opus_model : Option String
  anthropic_default_haiku_model : Option String
deriving DecidableEq

/-- Rust side: `build_env_object` (src/main.rs lines 476-508).  One entry per
`Some` field, in the source's insertion order; `None` fields are omitted. -/
def build_env_object (env : EnvSettings) : List (String × JVal) :=
  (env.anthropic_base_url.map
    (fun v => ("ANTHROPIC_BASE_URL", JVal.str v))).toList ++
  (env.anthropic_auth_token.map
    (fun v => ("ANTHROPIC_AUTH_TOKEN", JVal.str v))).toList ++
  (env.api_timeout_ms.map
    (fun v => ("API_TIMEOUT_MS", JVal.str v))).toList ++
  (env.claude_code_disable_nonessential_traffic.map
    (fun v => ("CLAUDE_CODE_DISABLE_NONESSENTIAL_TRAFFIC", JVal.num v))).toList ++
  (env.anthropic_model.map
    (fun v => ("ANTHROPIC_MODEL", JVal.str v))).toList ++
  (env.anthropic_small_fast_model.map
    (fun v => ("ANTHROPIC_SMALL_FAST_MODEL", JVal.str v))).toList ++
  (env.anthropic_default_sonnet_model.map
    (fun v => ("ANTHROPIC_DEFAULT_SONNET_MODEL", JVal.str v))).toList ++
  (env.anthropic_default_opus_model.map
    (fun v => ("ANTHROPIC_DEFAULT_OPUS_MODEL", JVal.str v))).toList ++
  (env.anthropic_default_haiku_model.map
    (fun v => ("ANTHROPIC_DEFAULT_HAIKU_MODEL", JVal.str v))).toList

/-- Rust side: the `EnvSettings` literal built by `setup_provider_interactive`
(src/main.rs lines 402-412) from the four prompted inputs.  `Some(x).filter
(not is_empty)` is written as an emptiness test. -/
def setup_provider_env (base_url api_key default_model haiku_model : String) :
    EnvSettings where
  anthropic_base_url := some base_url
  anthropic_auth_token := some api_key
  api_timeout_ms := some "3000000"
  claude_code_disable_nonessential_traffic := some 1
  anthropic_model := if default_model = "" then none else some default_model
  anthropic_small_fast_model :=
    if default_model = "" then none else some default_model
  anthropic_default_sonnet_model :=
    if default_model = "" then none else some default_model
  anthropic_default_opus_model :=
    if default_model = "" then none else some default_model
  anthropic_default_haiku_model :=
    if haiku_model = "" then none else some haiku_model

/-! ## The swap transaction: run_with_provider (src/main.rs lines 510-548)

The serde parse and serialize steps are external library calls; they are
taken as parameters (`parse_provider`, `parse_settings`, `render`).  The
file system is the pair of the provider file's and the settings file's
contents; reads and writes of the settings file are also recorded in an
event trace so that "the settings file was not touched" is statable. -/

/-- Outcome of spawning the child process: it launched and exited with the
given success flag, or `Command::status` itself returned an error. -/
inductive ChildOutcome where
  | launched (success : Bool)
  | failedToLaunch
deriving DecidableEq

/-- File-system and process events of one `run_with_provider` call, in
order of occurrence. -/
inductive FsEvent where
  | readProviderFile
  | readSettingsFile
  | writeSettingsFile (content : String)
  | spawnChild
deriving DecidableEq

/-- Result of `run_with_provider`: normal return `ok`, an `anyhow` error
with its message, or a panic (the `expect` on `as_object_mut`). -/
inductive RunOutcome where
  | ok
  | error (msg : String)
  | panicked (msg : String)
deriving DecidableEq

/-- The two files `run_with_provider` touches, each `none` when absent. -/
structure SwapFs where
  providerFile : Option String
  settingsFile : Option String
deriving DecidableEq

/-- Rust side: `run_with_provider` (src/main.rs lines 510-548).  Returns
the outcome, the final file contents, and the event trace.  The error
messages for the serde failures stand in for serde's own; the messages the
claims quote (`not found`, `Failed to execute claude`, non-zero exit,
the `expect` text) are verbatim from the source.  Note the source applies
`?` to `Command::status`, so on `failedToLaunch` it returns *before* the
restoration write of `settings_content`. -/
def run_with_provider
    (parse_provider : String → Option EnvSettings)
    (parse_settings : String → Option JVal)
    (render : JVal → String)
    (fs : SwapFs) (provider_name : String) (child : ChildOutcome) :
    RunOutcome × SwapFs × List FsEvent :=
  match fs.providerFile with
  | none =>
    (.error ("Provider '" ++ provider_name ++
      "' not found. Run 'claude-provider setup' first."), fs, [])
  | some provider_content =>
    match parse_provider provider_content with
    | none => (.error "failed to parse provider profile", fs,
        [.readProviderFile])
    | some env =>
      match fs.settingsFile with
      | none => (.error "failed to read settings.json", fs,
          [.readProviderFile])
      | some settings_content =>
        match parse_settings settings_content with
        | none => (.error "failed to parse settings.json", fs,
            [.readProviderFile, .readSettingsFile])
        | some doc =>
          match asObject doc with
          | none => (.panicked "settings should be an object", fs,
              [.readProviderFile, .readSettingsFile])
          | some fields =>
            let modified := render (JVal.obj
              (insertKey fields "env" (JVal.obj (build_env_object env))))
            let swapped : SwapFs := { fs with settingsFile := some modified }
            match child with
            | .failedToLaunch =>
              (.error "Failed to execute claude", swapped,
                [.readProviderFile, .readSettingsFile,
                 .writeSettingsFile modified, .spawnChild])
            | .launched success =>
              let restored : SwapFs :=
                { swapped with settingsFile := some settings_content }
              let trace : List FsEvent :=
                [.readProviderFile, .readSettingsFile,
                 .writeSettingsFile modified, .spawnChild,
                 .writeSettingsFile settings_content]
              if success then (.ok, restored, trace)
              else (.error "claude exited with non-zero status", restored, trace)

/-! ## The shell-function text-block editor
(src/main.rs lines 246-277 and 291-331)

File contents are modelled as lists of characters.  `str::lines`,
`join("\n")`, `str::trim`, `starts_with` and the block-dropping scan are
each translated below; a file is `Option (List Char)`, `none` when absent.
Only the function-file effect of `append_provider_function_to_file` is
modelled: its rc-file side effect touches a different file and no claim
refers to it. -/

/-- Rust side: `char::is_whitespace` (the Unicode White_Space property),
the character class `str::trim` removes. -/
def isRustWS (c : Char) : Bool :=
  c.val = 0x09 || c.val = 0x0A || c.val = 0x0B || c.val = 0x0C ||
  c.val = 0x0D || c.val = 0x20 || c.val = 0x85 || c.val = 0xA0 ||
  c.val = 0x1680 || (0x2000 ≤ c.val && c.val ≤ 0x200A) ||
  c.val = 0x2028 || c.val = 0x2029 || c.val = 0x202F || c.val = 0x205F ||
  c.val = 0x3000

/-- Leading-whitespace trim (`str::trim_start`). -/
def trimLeftCL (l : List Char) : List Char := l.dropWhile isRustWS

/-- Trailing-whitespace trim (`str::trim_end`). -/
def trimRightCL (l : List Char) : List Char :=
  (l.reverse.dropWhile isRustWS).reverse

/-- Rust side: `str::trim`. -/
def trimCL (l : List Char) : List Char := trimRightCL (trimLeftCL l)

/-- Split at every newline, keeping a (possibly empty) final chunk: the raw
chunk decomposition underlying `str::lines`. -/
def splitNL : List Char → List (List Char)
  | [] => [[]]
  | c :: cs =>
    if c = '\n' then [] :: splitNL cs
    else
      match splitNL cs with
      | [] => [[c]]
      | l :: ls => (c :: l) :: ls

/-- Drop one trailing carriage return: `str::lines` treats `\r\n` as a line
ending. -/
def stripCR (l : List Char) : List Char :=
  if l.getLast? = some '\r' then l.dropLast else l

/-- Turn the raw chunks into `str::lines` output: every chunk but the last
was newline-terminated, so loses a trailing `\r`; a final empty chunk (the
content ended with a newline) yields no line. -/
def closeLines : List (List Char) → List (List Char)
  | [] => []
  | [l] => if l = [] then [] else [l]
  | chunk :: rest => stripCR chunk :: closeLines rest

/-- Rust side: `str::lines`. -/
def rustLines (s : List Char) : List (List Char) := closeLines (splitNL s)

/-- Join lines with newlines: `Vec::join("\n")`. -/
def joinNL : List (List Char) → List Char
  | [] => []
  | [l] => l
  | l :: ls => l ++ '\n' :: joinNL ls

/-- Rust side: `format!("# Provider function for \x7b\x7d", provider_name)`,
the marker line opening a provider's block. -/
def marker (provider_name : List Char) : List Char :=
  "# Provider function for ".data ++ provider_name

/-- The four lines of the generated wrapper-function block for a provider
(the `func_content` literal of `append_provider_function_to_file`,
src/main.rs lines 292-299). -/
def funcLines (name : List Char) : List (List Char) :=
  [marker name,
   name ++ "() \x7b".data,
   "    claude-provider use ".data ++ name ++ " \x22$@\x22".data,
   "\x7d".data]

/-- Rust side: the `func_content` string (block text with a trailing
newline). -/
def func_content (name : List Char) : List Char :=
  joinNL (funcLines name) ++ ['\n']

/-- Rust side: the line scan shared by `remove_provider_function_from_file`
and `append_provider_function_to_file` (src/main.rs lines 253-268 and
307-322): drop every line from one starting with the marker up to and
including the first line whose trim is the closing brace; keep the rest. -/
def dropBlock (m : List Char) : List (List Char) → Bool → List (List Char)
  | [], _ => []
  | l :: ls, inside =>
    if m.isPrefixOf l then dropBlock m ls true
    else if inside then
      if trimCL l = ['\x7d'] then dropBlock m ls false
      else dropBlock m ls true
    else l :: dropBlock m ls false

/-- The `in_function_block` flag after scanning the given lines. -/
def scanState (m : List Char) : List (List Char) → Bool → Bool
  | [], b => b
  | l :: ls, inside =>
    if m.isPrefixOf l then scanState m ls true
    else if inside then
      if trimCL l = ['\x7d'] then scanState m ls false
      else scanState m ls true
    else scanState m ls false

/-- Rust side: `cleaned_lines.join("\n").trim().to_string()` applied to the
scan of a file's lines. -/
def cleanedContent (m : List Char) (content : List Char) : List Char :=
  trimCL (joinNL (dropBlock m (rustLines content) false))

/-- Rust side: `remove_provider_function_from_file` (src/main.rs lines
246-277).  A missing file returns success; an empty remainder deletes the
file; otherwise the remainder is written. -/
def remove_provider_function_from_file (file : Option (List Char))
    (provider_name : List Char) : Except String (Option (List Char)) :=
  match file with
  | none => .ok none
  | some content =>
    let cleaned := cleanedContent (marker provider_name) content
    if cleaned = [] then .ok none else .ok (some cleaned)

/-- Rust side: `append_provider_function_to_file` (src/main.rs lines
291-331), function-file content: drop any existing block of the same name,
then append the freshly generated block after a blank-line separator (or
alone when nothing remains). -/
def append_provider_function_to_file (file : Option (List Char))
    (name : List Char) : List Char :=
  let existing := match file with | some c => c | none => []
  let cleaned := cleanedContent (marker name) existing
  if cleaned = [] then func_content name
  else cleaned ++ '\n' :: '\n' :: func_content name

/-! ## Line-level description of trimming a joined file

`trimLinesL`/`trimLinesR` describe, at the level of the line list, what
`str::trim` does to the newline-joined file: drop blank edge lines, trim
the outermost surviving lines.  They are specification helpers used to
state and prove the editor lemmas. -/

/-- A line consisting of whitespace only. -/
def isBlankL (l : List Char) : Bool := l.all isRustWS

/-- Effect of `trim_start` on a line list joined by newlines. -/
def trimLinesL : List (List Char) → List (List Char)
  | [] => []
  | l :: ls => if isBlankL l then trimLinesL ls else trimLeftCL l :: ls

/-- Effect of `trim_end` on a line list joined by newlines (the mirror image
of `trimLinesL`). -/
def trimLinesR (S : List (List Char)) : List (List Char) :=
  ((trimLinesL ((S.map List.reverse).reverse)).map List.reverse).reverse

/-- Effect of `str::trim` on a line list joined by newlines. -/
def trimLines (S : List (List Char)) : List (List Char) :=
  trimLinesR (trimLinesL S)

/-! ## Listing providers (src/main.rs lines 362-377)

A directory is modelled as the list of its entries' file names. -/

/-- Index of the last dot in a file name, if any. -/
def lastDotIdx (cs : List Char) : Option Nat :=
  ((cs.enum.filter (fun p => p.2 = '.')).getLast?).map (fun p => p.1)

/-- Rust side: `Path::file_stem` on a file name: the part before the last
dot, except that a name without a dot, or whose only dot leads it, is its
own stem. -/
def file_stem (f : String) : String :=
  match lastDotIdx f.data with
  | none => f
  | some 0 => f
  | some i => String.mk (f.data.take i)

/-- Rust side: `Path::extension` on a file name: the part after the last
dot, none when there is no dot or the name starts with its only dot. -/
def file_extension (f : String) : Option String :=
  match lastDotIdx f.data with
  | none => none
  | some 0 => none
  | some i => some (String.mk (f.data.drop (i + 1)))

/-- Rust side: `list_providers` (src/main.rs lines 362-377): the file stems
of the entries bearing the json extension, sorted.  `Vec::sort` is modelled
by insertion sort — on a linear order every comparison sort produces the
same output. -/
def list_providers (entries : List String) : List String :=
  List.insertionSort (· ≤ ·)
    ((entries.filter (fun f => file_extension f = some "json")).map file_stem)

/-! ## Claims about the environment block and the swap transaction -/

/-- C5: for every profile created through setup, the built environment block
contains exactly the four always-present variables, then the four
default-model variables only when the default model is non-empty, then the
haiku variable only when the haiku model is non-empty; in particular an
empty default model with a non-empty haiku model yields the haiku variable
and omits ANTHROPIC_MODEL, ANTHROPIC_SMALL_FAST_MODEL,
ANTHROPIC_DEFAULT_SONNET_MODEL and ANTHROPIC_DEFAULT_OPUS_MODEL, and no
absent field is written as null or empty. -/
theorem C5_env_block_from_nonempty_fields_only (u k dm hm : String) :
    build_env_object (setup_provider_env u k dm hm) =
      [("ANTHROPIC_BASE_URL", JVal.str u),
       ("ANTHROPIC_AUTH_TOKEN", JVal.str k),
       ("API_TIMEOUT_MS", JVal.str "3000000"),
       ("CLAUDE_CODE_DISABLE_NONESSENTIAL_TRAFFIC", JVal.num 1)] ++
      (if dm = "" then []
       else [("ANTHROPIC_MODEL", JVal.str dm),
             ("ANTHROPIC_SMALL_FAST_MODEL", JVal.str dm),
             ("ANTHROPIC_DEFAULT_SONNET_MODEL", JVal.str dm),
             ("ANTHROPIC_DEFAULT_OPUS_MODEL", JVal.str dm)]) ++
      (if hm = "" then []
       else [("ANTHROPIC_DEFAULT_HAIKU_MODEL", JVal.str hm)]) := by
  by_cases hd : dm = "" <;> by_cases hh : hm = "" <;>
    simp [build_env_object, setup_provider_env, hd, hh]

/-- C6: the profile acme with base URL https://api.acme.test, token tok-123,
default model acme-large and empty haiku model yields exactly the eight-entry
environment block of the claim, with no haiku key. -/
theorem C6_acme_env_block :
    build_env_object
        (setup_provider_env "https://api.acme.test" "tok-123" "acme-large" "") =
      [("ANTHROPIC_BASE_URL", JVal.str "https://api.acme.test"),
       ("ANTHROPIC_AUTH_TOKEN", JVal.str "tok-123"),
       ("API_TIMEOUT_MS", JVal.str "3000000"),
       ("CLAUDE_CODE_DISABLE_NONESSENTIAL_TRAFFIC", JVal.num 1),
       ("ANTHROPIC_MODEL", JVal.str "acme-large"),
       ("ANTHROPIC_SMALL_FAST_MODEL", JVal.str "acme-large"),
       ("ANTHROPIC_DEFAULT_SONNET_MODEL", JVal.str "acme-large"),
       ("ANTHROPIC_DEFAULT_OPUS_MODEL", JVal.str "acme-large")] := rfl

/-- C7: when the provider's profile file does not exist, run_with_provider
fails with the not-found message directing the user to run setup first, the
file system is unchanged, and the event trace is empty: the settings file is
neither read nor written.  Holds for every parse and render function, every
settings-file state and every child outcome. -/
theorem C7_missing_provider_aborts_untouched
    (pp : String → Option EnvSettings) (ps : String → Option JVal)
    (render : JVal → String) (settings : Option String)
    (name : String) (child : ChildOutcome) :
    run_with_provider pp ps render ⟨none, settings⟩ name child =
      (.error ("Provider '" ++ name ++
        "' not found. Run 'claude-provider setup' first."),
       ⟨none, settings⟩, []) := rfl

/-- C10: a settings.json whose content parses as JSON whose top-level value
is an array (not an object) drives run_with_provider into the expect on
as_object_mut: the model's outcome is a panic with the expect message, not
an error return. -/
theorem C10_nonobject_settings_panics :
    run_with_provider
      (fun _ => some (setup_provider_env "https://api.acme.test" "tok-123"
        "acme-large" ""))
      (fun _ => some (JVal.arr [])) (fun _ => "")
      ⟨some "provider-json", some "[]"⟩ "acme" (.launched true) =
      (.panicked "settings should be an object",
       ⟨some "provider-json", some "[]"⟩,
       [.readProviderFile, .readSettingsFile]) := rfl

/-- C1 (code bug demonstration): when the child process fails to launch,
run_with_provider returns the Failed-to-execute error with the settings
file still holding the swapped content — the trace shows the swap write but
no restoration write, and the final settings content differs from the
original.  The claim's restoration invariant therefore fails on the
launch-failure path. -/
theorem C1_launch_failure_skips_restoration :
    run_with_provider
      (fun _ => some (setup_provider_env "https://api.acme.test" "tok-123"
        "acme-large" ""))
      (fun _ => some (JVal.obj [])) (fun _ => "swapped-settings")
      ⟨some "provider-json", some "original-settings"⟩ "acme"
      .failedToLaunch =
      (.error "Failed to execute claude",
       ⟨some "provider-json", some "swapped-settings"⟩,
       [.readProviderFile, .readSettingsFile,
        .writeSettingsFile "swapped-settings", .spawnChild]) ∧
    some "swapped-settings" ≠ some "original-settings" :=
  ⟨rfl, by decide⟩

/-! ## Concrete editor scenarios: counterexamples and the remove edge cases -/

/-- C2 (counterexample): the marker test is `starts_with`, so removing
profile a on a file holding exactly the block of the differently-named
profile ab deletes that block (the file is removed outright): isolation
fails when one profile's name is a prefix of another's. -/
theorem C2_counterexample_prefix_name_clash :
    remove_provider_function_from_file (some (func_content ("ab".data)))
      ("a".data) = .ok none := rfl

/-- C3 (counterexample): on a file whose surviving text begins with
whitespace followed by the marker line, the first upsert's trim promotes
that text into a real block of the same name, which the second upsert then
drops: calling the register upsert twice differs from calling it once. -/
theorem C3_counterexample_trim_promotes_marker :
    append_provider_function_to_file
        (some (append_provider_function_to_file
          (some ("  # Provider function for p\nx\n\x7d".data)) ("p".data)))
        ("p".data) ≠
      append_provider_function_to_file
        (some ("  # Provider function for p\nx\n\x7d".data)) ("p".data) := by
  decide

/-- C4 (counterexample): a pre-register content with a trailing newline is
given back trimmed — remove after register yields "hello", not the original
"hello\n", and not a deletion either, so the round-trip fails. -/
theorem C4_counterexample_trailing_newline_lost :
    remove_provider_function_from_file
        (some (append_provider_function_to_file (some ("hello\n".data))
          ("p".data))) ("p".data) = .ok (some ("hello".data)) ∧
      ("hello\n".data ≠ "hello".data) :=
  ⟨rfl, by decide⟩

/-- C8: removing a provider's block is a no-op success when the function
file does not exist, and when the remainder after dropping the block is
empty the file is deleted rather than written back empty. -/
theorem C8_remove_missing_noop_and_empty_deletes
    (name content : List Char) :
    remove_provider_function_from_file none name = .ok none ∧
    (cleanedContent (marker name) content = [] →
      remove_provider_function_from_file (some content) name = .ok none) := by
  refine ⟨rfl, fun h => ?_⟩
  simp [remove_provider_function_from_file, h]

/-- C8 witness: the no-op on a missing file, and deletion of a file that
holds exactly provider p's block. -/
theorem C8_witness :
    remove_provider_function_from_file none ("p".data) = .ok none ∧
    remove_provider_function_from_file (some (func_content ("p".data)))
      ("p".data) = .ok none :=
  ⟨(C8_remove_missing_noop_and_empty_deletes ("p".data)
      (func_content ("p".data))).1,
   (C8_remove_missing_noop_and_empty_deletes ("p".data)
      (func_content ("p".data))).2 (by decide)⟩

/-- C9: list_providers of an empty directory is the empty sequence (not an
error), and in general it returns a sorted sequence containing exactly the
stems of the entries that bear the json extension. -/
theorem C9_list_providers_sorted_json_stems (entries : List String) :
    list_providers [] = [] ∧
    List.Sorted (· ≤ ·) (list_providers entries) ∧
    ∀ a : String, a ∈ list_providers entries ↔
      ∃ f ∈ entries, file_extension f = some "json" ∧ file_stem f = a := by
  refine ⟨rfl, List.sorted_insertionSort _ _, fun a => ?_⟩
  rw [list_providers, List.mem_insertionSort]
  simp only [List.mem_map, List.mem_filter]
  constructor
  · rintro ⟨f, ⟨hf, he⟩, hs⟩
    exact ⟨f, hf, by simpa using he, hs⟩
  · rintro ⟨f, hf, he, hs⟩
    exact ⟨f, ⟨hf, by simpa using he⟩, hs⟩

/-! ## Lemmas on line splitting and joining -/

theorem splitNL_cons_newline (t : List Char) :
    splitNL ('\n' :: t) = [] :: splitNL t := by
  rw [splitNL]; simp

theorem closeLines_cons_cons (x y : List Char) (ys : List (List Char)) :
    closeLines (x :: y :: ys) = stripCR x :: closeLines (y :: ys) := rfl

theorem splitNL_ne_nil (s : List Char) : splitNL s ≠ [] := by
  induction s with
  | nil => simp [splitNL]
  | cons c cs ih =>
    rw [splitNL]
    split
    · simp
    · rcases h : splitNL cs with _ | ⟨l, ls⟩ <;> simp [h]

theorem splitNL_append_newline (a b : List Char) :
    splitNL (a ++ '\n' :: b) = splitNL a ++ splitNL b := by
  induction a with
  | nil => simp [splitNL]
  | cons c cs ih =>
    by_cases hc : c = '\n'
    · subst hc
      rw [List.cons_append, splitNL_cons_newline, splitNL_cons_newline, ih,
        List.cons_append]
    · rw [List.cons_append, splitNL, if_neg hc, splitNL, if_neg hc, ih]
      rcases h : splitNL cs with _ | ⟨l, ls⟩
      · exact absurd h (splitNL_ne_nil cs)
      · simp [h]

theorem mem_splitNL {s l : List Char} (h : l ∈ splitNL s) :
    '\n' ∉ l ∧ ∀ c ∈ l, c ∈ s := by
  induction s generalizing l with
  | nil =>
    simp only [splitNL, List.mem_singleton] at h
    subst h; simp
  | cons c cs ih =>
    by_cases hc : c = '\n'
    · subst hc
      rw [splitNL, if_pos rfl] at h
      rcases List.mem_cons.mp h with rfl | h
      · simp
      · obtain ⟨h1, h2⟩ := ih h
        exact ⟨h1, fun x hx => List.mem_cons_of_mem _ (h2 x hx)⟩
    · rw [splitNL, if_neg hc] at h
      rcases he : splitNL cs with _ | ⟨t, ts⟩
      · exact absurd he (splitNL_ne_nil cs)
      · rw [he] at h
        rcases List.mem_cons.mp h with rfl | h
        · have ht := ih (l := t) (by rw [he]; exact List.mem_cons_self _ _)
          refine ⟨fun hmem => ?_, fun x hx => ?_⟩
          · rcases List.mem_cons.mp hmem with h' | h'
            · exact hc h'.symm
            · exact ht.1 h'
          · rcases List.mem_cons.mp hx with rfl | h'
            · exact List.mem_cons_self _ _
            · exact List.mem_cons_of_mem _ (ht.2 x h')
        · obtain ⟨h1, h2⟩ := ih (l := l)
            (by rw [he]; exact List.mem_cons_of_mem _ h)
          exact ⟨h1, fun x hx => List.mem_cons_of_mem _ (h2 x hx)⟩

theorem closeLines_append (xs : List (List Char)) {ys : List (List Char)}
    (h : ys ≠ []) :
    closeLines (xs ++ ys) = xs.map stripCR ++ closeLines ys := by
  induction xs with
  | nil => simp
  | cons x xs ih =>
    rcases hxy : xs ++ ys with _ | ⟨z, zs⟩
    · exact absurd (List.append_eq_nil.mp hxy).2 h
    · rw [List.cons_append, hxy, closeLines_cons_cons, ← hxy, ih]
      simp

theorem rustLines_append_newline (a b : List Char) :
    rustLines (a ++ '\n' :: b) = (splitNL a).map stripCR ++ rustLines b := by
  rw [rustLines, splitNL_append_newline,
    closeLines_append _ (splitNL_ne_nil b), rustLines]

theorem mem_closeLines {xs : List (List Char)} {l : List Char}
    (h : l ∈ closeLines xs) : ∃ x ∈ xs, l = x ∨ l = stripCR x := by
  induction xs with
  | nil => simp [closeLines] at h
  | cons x xs ih =>
    cases xs with
    | nil =>
      rw [closeLines] at h
      split at h
      · simp at h
      · rw [List.mem_singleton] at h
        exact ⟨x, by simp, Or.inl h⟩
    | cons y ys =>
      rw [closeLines_cons_cons] at h
      rcases List.mem_cons.mp h with rfl | h
      · exact ⟨x, by simp, Or.inr rfl⟩
      · obtain ⟨z, hz, hor⟩ := ih h
        exact ⟨z, List.mem_cons_of_mem _ hz, hor⟩

theorem stripCR_sublist (l : List Char) : List.Sublist (stripCR l) l := by
  rw [stripCR]; split
  · exact List.dropLast_sublist l
  · exact List.Sublist.refl l

theorem stripCR_eq_self {l : List Char} (h : '\r' ∉ l) : stripCR l = l := by
  rw [stripCR, if_neg]
  intro hl
  obtain ⟨hne, heq⟩ :=
    List.mem_getLast?_eq_getLast (show '\r' ∈ l.getLast? from hl)
  exact h (heq ▸ List.getLast_mem hne)

theorem mem_rustLines {s l : List Char} (h : l ∈ rustLines s) :
    '\n' ∉ l ∧ ∀ c ∈ l, c ∈ s := by
  obtain ⟨x, hx, hor⟩ := mem_closeLines h
  obtain ⟨h1, h2⟩ := mem_splitNL hx
  rcases hor with rfl | rfl
  · exact ⟨h1, h2⟩
  · exact ⟨fun hm => h1 ((stripCR_sublist x).mem hm),
      fun c hc => h2 c ((stripCR_sublist x).mem hc)⟩

theorem splitNL_single {l : List Char} (h : '\n' ∉ l) : splitNL l = [l] := by
  induction l with
  | nil => rfl
  | cons c cs ih =>
    rw [splitNL,
      if_neg (show ¬ c = '\n' by
        intro hc
        exact h (by rw [← hc]; exact List.mem_cons_self c cs)),
      ih (fun hm => h (List.mem_cons_of_mem _ hm))]

theorem splitNL_joinNL {S : List (List Char)} (hS : S ≠ [])
    (h : ∀ l ∈ S, '\n' ∉ l) : splitNL (joinNL S) = S := by
  induction S with
  | nil => exact absurd rfl hS
  | cons l ls ih =>
    cases ls with
    | nil => exact splitNL_single (h l (by simp))
    | cons t ts =>
      rw [show joinNL (l :: t :: ts) = l ++ '\n' :: joinNL (t :: ts) from rfl,
        splitNL_append_newline, splitNL_single (h l (by simp)),
        ih (by simp) (fun x hx => h x (List.mem_cons_of_mem _ hx))]
      rfl

theorem joinNL_append {A B : List (List Char)} (hA : A ≠ []) (hB : B ≠ []) :
    joinNL (A ++ B) = joinNL A ++ '\n' :: joinNL B := by
  induction A with
  | nil => exact absurd rfl hA
  | cons a A ih =>
    cases A with
    | nil =>
      cases B with
      | nil => exact absurd rfl hB
      | cons b B' => simp [joinNL]
    | cons a' A' =>
      rw [show (a :: a' :: A') ++ B = a :: ((a' :: A') ++ B) from rfl]
      rw [show joinNL (a :: a' :: A') = a ++ '\n' :: joinNL (a' :: A') from rfl]
      rcases hab : (a' :: A') ++ B with _ | ⟨z, zs⟩
      · simp at hab
      · rw [show joinNL (a :: z :: zs) = a ++ '\n' :: joinNL (z :: zs) from rfl,
          ← hab, ih (by simp)]
        simp

/-! ## Lemmas on whitespace trimming -/

theorem trimLeftCL_eq_nil_iff {l : List Char} :
    trimLeftCL l = [] ↔ isBlankL l = true := by
  simp [trimLeftCL, List.dropWhile_eq_nil_iff, isBlankL, List.all_eq_true]

theorem trimLeftCL_append_blank {a : List Char} (b : List Char)
    (ha : isBlankL a = true) : trimLeftCL (a ++ b) = trimLeftCL b := by
  rw [trimLeftCL, List.dropWhile_append,
    show a.dropWhile isRustWS = [] from trimLeftCL_eq_nil_iff.mpr ha]
  simp [trimLeftCL]

theorem trimLeftCL_append_of_not_blank {a : List Char} (b : List Char)
    (ha : isBlankL a = false) : trimLeftCL (a ++ b) = trimLeftCL a ++ b := by
  rw [trimLeftCL, List.dropWhile_append]
  have hne : a.dropWhile isRustWS ≠ [] := by
    intro hnil
    rw [show a.dropWhile isRustWS = trimLeftCL a from rfl,
      trimLeftCL_eq_nil_iff] at hnil
    rw [hnil] at ha
    simp at ha
  simp [List.isEmpty_iff, hne, trimLeftCL]

theorem trimLeftCL_cons_of_not_ws {c : Char} (l : List Char)
    (hc : isRustWS c = false) : trimLeftCL (c :: l) = c :: l := by
  simp [trimLeftCL, List.dropWhile_cons, hc]

theorem trimLeftCL_snoc {c : Char} (x : List Char) (hc : isRustWS c = false) :
    trimLeftCL (x ++ [c]) = trimLeftCL x ++ [c] := by
  by_cases hb : isBlankL x = true
  · rw [trimLeftCL_append_blank _ hb, trimLeftCL_eq_nil_iff.mpr hb,
      trimLeftCL_cons_of_not_ws _ hc]
    simp
  · exact trimLeftCL_append_of_not_blank _ (Bool.eq_false_iff.mpr hb)

theorem trimRightCL_snoc {c : Char} (y : List Char) (hc : isRustWS c = false) :
    trimRightCL (y ++ [c]) = y ++ [c] := by
  rw [trimRightCL, List.reverse_append]
  simp [List.dropWhile_cons, hc]

theorem trimRightCL_append_ws {w : Char} (y : List Char)
    (hw : isRustWS w = true) : trimRightCL (y ++ [w]) = trimRightCL y := by
  rw [trimRightCL, trimRightCL, List.reverse_append]
  simp [List.dropWhile_cons, hw]

theorem trimCL_snoc {c : Char} (x : List Char) (hc : isRustWS c = false) :
    trimCL (x ++ [c]) = trimLeftCL x ++ [c] := by
  rw [trimCL, trimLeftCL_snoc x hc, trimRightCL_snoc _ hc]

theorem trimCL_of_blank {x : List Char} (hb : isBlankL x = true) :
    trimCL x = [] := by
  rw [trimCL, trimLeftCL_eq_nil_iff.mpr hb]
  rfl

theorem trimCL_append_ws {w : Char} (x : List Char) (hw : isRustWS w = true) :
    trimCL (x ++ [w]) = trimCL x := by
  by_cases hb : isBlankL x = true
  · have h1 : isBlankL (x ++ [w]) = true := by
      rw [isBlankL] at hb ⊢
      simp only [List.all_append, hb, List.all_cons, List.all_nil, hw]
      rfl
    rw [trimCL_of_blank h1, trimCL_of_blank hb]
  · rw [trimCL, trimLeftCL_append_of_not_blank _ (Bool.eq_false_iff.mpr hb),
      trimRightCL_append_ws _ hw, trimCL]

theorem head?_trimLeftCL {x : List Char} {c : Char}
    (h : (trimLeftCL x).head? = some c) : isRustWS c = false := by
  induction x with
  | nil => simp [trimLeftCL] at h
  | cons a l ih =>
    rw [trimLeftCL, List.dropWhile_cons] at h
    split at h
    · exact ih h
    · rename_i ha
      simp only [List.head?_cons, Option.some.injEq] at h
      subst h
      exact Bool.eq_false_iff.mpr ha

theorem trimLeftCL_idem (x : List Char) :
    trimLeftCL (trimLeftCL x) = trimLeftCL x := by
  rcases h : trimLeftCL x with _ | ⟨c, l⟩
  · rfl
  · exact trimLeftCL_cons_of_not_ws l (head?_trimLeftCL (by rw [h]; rfl))

theorem trimRightCL_eq_reverse (y : List Char) :
    trimRightCL y = (trimLeftCL y.reverse).reverse := rfl

theorem trimRightCL_idem (y : List Char) :
    trimRightCL (trimRightCL y) = trimRightCL y := by
  rw [trimRightCL_eq_reverse, trimRightCL_eq_reverse, List.reverse_reverse,
    trimLeftCL_idem]

theorem trimLeftCL_suffix (x : List Char) : trimLeftCL x <:+ x :=
  List.dropWhile_suffix _

theorem trimRightCL_front (y : List Char) : trimRightCL y <+: y := by
  have h := List.dropWhile_suffix (l := y.reverse) isRustWS
  have h2 : (List.dropWhile isRustWS y.reverse).reverse <+: y.reverse.reverse :=
    List.reverse_prefix.mpr h
  rw [List.reverse_reverse] at h2
  exact h2

theorem head?_of_front {l₁ l₂ : List Char} (h : l₁ <+: l₂) (hne : l₁ ≠ []) :
    l₂.head? = l₁.head? := by
  obtain ⟨t, rfl⟩ := h
  cases l₁ with
  | nil => exact absurd rfl hne
  | cons a l => simp

theorem trimLeftCL_of_trimmed {x : List Char} (h : trimCL x ≠ []) :
    trimLeftCL (trimCL x) = trimCL x := by
  rcases hh : trimCL x with _ | ⟨c, l⟩
  · exact absurd hh h
  · have hp : trimCL x <+: trimLeftCL x := trimRightCL_front _
    have hhead : (trimLeftCL x).head? = some c := by
      rw [head?_of_front hp (by rw [hh]; simp), hh]
      rfl
    exact trimLeftCL_cons_of_not_ws l (head?_trimLeftCL hhead)

theorem trimCL_idem (x : List Char) : trimCL (trimCL x) = trimCL x := by
  by_cases h : trimCL x = []
  · rw [h]; rfl
  · rw [trimCL, trimLeftCL_of_trimmed h, trimCL, trimRightCL_idem]

/-! ## Trimming a joined line list, line by line -/

theorem ws_newline : isRustWS '\n' = true := by decide

theorem trimLeftCL_joinNL (S : List (List Char)) :
    trimLeftCL (joinNL S) = joinNL (trimLinesL S) := by
  induction S with
  | nil => rfl
  | cons l ls ih =>
    cases ls with
    | nil =>
      by_cases hb : isBlankL l = true
      · rw [show joinNL [l] = l from rfl, trimLinesL]
        rw [trimLeftCL_eq_nil_iff.mpr hb]
        simp [hb, trimLinesL, joinNL]
      · rw [show joinNL [l] = l from rfl, trimLinesL, if_neg (by simp [hb])]
        rfl
    | cons t ts =>
      by_cases hb : isBlankL l = true
      · have hb2 : isBlankL (l ++ ['\n']) = true := by
          rw [isBlankL] at hb ⊢
          simp only [List.all_append, hb, List.all_cons, List.all_nil,
            ws_newline]
          rfl
        calc trimLeftCL (joinNL (l :: t :: ts))
            = trimLeftCL ((l ++ ['\n']) ++ joinNL (t :: ts)) := by
              rw [show joinNL (l :: t :: ts) =
                l ++ '\n' :: joinNL (t :: ts) from rfl]
              simp
          _ = trimLeftCL (joinNL (t :: ts)) := trimLeftCL_append_blank _ hb2
          _ = joinNL (trimLinesL (t :: ts)) := ih
          _ = joinNL (trimLinesL (l :: t :: ts)) := by
              rw [show trimLinesL (l :: t :: ts) = trimLinesL (t :: ts) from
                by rw [trimLinesL, if_pos hb]]
      · rw [show joinNL (l :: t :: ts) = l ++ '\n' :: joinNL (t :: ts) from rfl,
          trimLeftCL_append_of_not_blank _ (by simp [hb]),
          show trimLinesL (l :: t :: ts) = trimLeftCL l :: t :: ts from
            by rw [trimLinesL, if_neg hb]]
        rfl

theorem joinNL_reverse (S : List (List Char)) :
    (joinNL S).reverse = joinNL ((S.map List.reverse).reverse) := by
  induction S with
  | nil => rfl
  | cons l ls ih =>
    cases ls with
    | nil => rfl
    | cons t ts =>
      rw [show joinNL (l :: t :: ts) = l ++ '\n' :: joinNL (t :: ts) from rfl,
        List.reverse_append,
        show ('\n' :: joinNL (t :: ts)).reverse =
          (joinNL (t :: ts)).reverse ++ ['\n'] by simp,
        ih,
        show ((l :: t :: ts).map List.reverse).reverse =
          (((t :: ts).map List.reverse).reverse) ++ [l.reverse] by simp,
        joinNL_append (by simp) (by simp)]
      simp [joinNL]

theorem trimRightCL_joinNL (S : List (List Char)) :
    trimRightCL (joinNL S) = joinNL (trimLinesR S) := by
  rw [trimRightCL_eq_reverse, joinNL_reverse S, trimLeftCL_joinNL,
    joinNL_reverse, trimLinesR]

theorem trimCL_joinNL (S : List (List Char)) :
    trimCL (joinNL S) = joinNL (trimLines S) := by
  rw [trimCL, trimLeftCL_joinNL, trimRightCL_joinNL, trimLines]

theorem mem_trimLinesL {S : List (List Char)} {l : List Char}
    (h : l ∈ trimLinesL S) : l ∈ S ∨ ∃ x ∈ S, l = trimLeftCL x := by
  induction S with
  | nil => simp [trimLinesL] at h
  | cons a as ih =>
    rw [trimLinesL] at h
    split at h
    · rcases ih h with h1 | ⟨x, hx, hl⟩
      · exact Or.inl (List.mem_cons_of_mem _ h1)
      · exact Or.inr ⟨x, List.mem_cons_of_mem _ hx, hl⟩
    · rcases List.mem_cons.mp h with rfl | h1
      · exact Or.inr ⟨a, List.mem_cons_self _ _, rfl⟩
      · exact Or.inl (List.mem_cons_of_mem _ h1)

theorem isBlankL_reverse (l : List Char) : isBlankL l.reverse = isBlankL l := by
  simp [isBlankL]

theorem mem_trimLinesR {S : List (List Char)} {l : List Char}
    (h : l ∈ trimLinesR S) : l ∈ S ∨ ∃ x ∈ S, l = trimRightCL x := by
  rw [trimLinesR, List.mem_reverse, List.mem_map] at h
  obtain ⟨m, hm, hl⟩ := h
  rcases mem_trimLinesL hm with h1 | ⟨x, hx, hm2⟩
  · rw [List.mem_reverse, List.mem_map] at h1
    obtain ⟨s, hs, hm3⟩ := h1
    left
    rw [← hl, ← hm3, List.reverse_reverse]
    exact hs
  · rw [List.mem_reverse, List.mem_map] at hx
    obtain ⟨s, hs, hx2⟩ := hx
    right
    refine ⟨s, hs, ?_⟩
    rw [← hl, hm2, ← hx2, trimRightCL_eq_reverse]

theorem mem_trimLines_trans {S : List (List Char)} {l : List Char}
    (P : List Char → Prop) (h : l ∈ trimLines S)
    (hP : ∀ x ∈ S, P x)
    (hL : ∀ x, P x → P (trimLeftCL x))
    (hR : ∀ x, P x → P (trimRightCL x)) : P l := by
  rw [trimLines] at h
  rcases mem_trimLinesR h with h1 | ⟨x, hx, rfl⟩
  · rcases mem_trimLinesL h1 with h2 | ⟨y, hy, rfl⟩
    · exact hP _ h2
    · exact hL _ (hP _ hy)
  · rcases mem_trimLinesL hx with h2 | ⟨y, hy, rfl⟩
    · exact hR _ (hP _ h2)
    · exact hR _ (hL _ (hP _ hy))

theorem head_trimLinesL_ne_nil {S : List (List Char)} {x : List Char}
    {t : List (List Char)} (h : trimLinesL S = x :: t) : x ≠ [] := by
  induction S with
  | nil => simp [trimLinesL] at h
  | cons a as ih =>
    rw [trimLinesL] at h
    split at h
    · exact ih h
    · rename_i ha
      injection h with h1 h2
      intro hnil
      rw [← h1] at hnil
      exact ha (trimLeftCL_eq_nil_iff.mp hnil)

theorem getLast?_trimLinesR {S : List (List Char)} {x : List Char}
    (h : (trimLinesR S).getLast? = some x) : x ≠ [] := by
  rw [trimLinesR, List.getLast?_reverse] at h
  rcases hm : trimLinesL ((S.map List.reverse).reverse) with _ | ⟨m, ms⟩
  · rw [hm] at h; simp at h
  · rw [hm] at h
    simp only [List.map_cons, List.head?_cons, Option.some.injEq] at h
    subst h
    intro hnil
    have hm0 : m = [] := by
      have := congrArg List.reverse hnil
      simpa using this
    exact head_trimLinesL_ne_nil hm hm0

theorem trimLinesL_append (A : List (List Char)) (b : List Char)
    (B' : List (List Char)) (hb : isBlankL b = false)
    (hb2 : trimLeftCL b = b) :
    ∃ A2, trimLinesL (A ++ b :: B') = A2 ++ b :: B' := by
  induction A with
  | nil =>
    refine ⟨[], ?_⟩
    rw [List.nil_append, trimLinesL, if_neg (by simp [hb]), hb2]
  | cons a as ih =>
    rw [List.cons_append, trimLinesL]
    split
    · exact ih
    · exact ⟨trimLeftCL a :: as, by simp⟩

theorem trimLinesR_append (Y : List (List Char)) (b : List Char)
    (C0 : List (List Char)) (hb : isBlankL b = false)
    (hb2 : trimRightCL b = b) :
    ∃ C2, trimLinesR (Y ++ b :: C0) = Y ++ b :: C2 := by
  have hb2' : trimLeftCL b.reverse = b.reverse := by
    have := congrArg List.reverse hb2
    rw [trimRightCL_eq_reverse, List.reverse_reverse] at this
    exact this
  obtain ⟨A2, hA2⟩ := trimLinesL_append ((C0.map List.reverse).reverse)
    b.reverse ((Y.map List.reverse).reverse)
    (by rw [isBlankL_reverse]; exact hb) hb2'
  refine ⟨(A2.map List.reverse).reverse, ?_⟩
  rw [trimLinesR,
    show ((Y ++ b :: C0).map List.reverse).reverse =
      ((C0.map List.reverse).reverse) ++ b.reverse ::
        ((Y.map List.reverse).reverse) by simp,
    hA2]
  simp

theorem joinNL_infix (A B C : List (List Char)) (hB : B ≠ []) :
    joinNL B <:+: joinNL (A ++ B ++ C) := by
  by_cases hA : A = []
  · by_cases hC : C = []
    · subst hA; subst hC
      simp
    · subst hA
      rw [List.nil_append, joinNL_append hB hC]
      exact ⟨[], '\n' :: joinNL C, by simp⟩
  · by_cases hC : C = []
    · subst hC
      rw [List.append_nil, joinNL_append hA hB]
      exact ⟨joinNL A ++ ['\n'], [], by simp⟩
    · rw [List.append_assoc, joinNL_append hA (by simp [hB]),
        joinNL_append hB hC]
      exact ⟨joinNL A ++ ['\n'], '\n' :: joinNL C, by simp⟩

/-! ## Lemmas on the block-dropping scan -/

theorem dropBlock_append (m : List Char) (A B : List (List Char)) (b : Bool) :
    dropBlock m (A ++ B) b =
      dropBlock m A b ++ dropBlock m B (scanState m A b) := by
  induction A generalizing b with
  | nil => rfl
  | cons l ls ih =>
    simp only [List.cons_append, dropBlock, scanState]
    split_ifs <;> simp [ih]

theorem dropBlock_keep_all (m : List Char) (A : List (List Char))
    (h : ∀ l ∈ A, m.isPrefixOf l = false) :
    dropBlock m A false = A ∧ scanState m A false = false := by
  induction A with
  | nil => exact ⟨rfl, rfl⟩
  | cons l ls ih =>
    have hl := h l (List.mem_cons_self _ _)
    obtain ⟨ih1, ih2⟩ := ih (fun x hx => h x (List.mem_cons_of_mem _ hx))
    refine ⟨?_, ?_⟩
    · rw [dropBlock, if_neg (by simp [hl])]
      simp [ih1]
    · rw [scanState, if_neg (by simp [hl])]
      simp [ih2]

theorem mem_dropBlock {m : List Char} {A : List (List Char)} {b : Bool}
    {l : List Char} (h : l ∈ dropBlock m A b) : l ∈ A := by
  induction A generalizing b with
  | nil => simp [dropBlock] at h
  | cons x xs ih =>
    rw [dropBlock] at h
    split at h
    · exact List.mem_cons_of_mem _ (ih h)
    · split at h
      · split at h
        · exact List.mem_cons_of_mem _ (ih h)
        · exact List.mem_cons_of_mem _ (ih h)
      · rcases List.mem_cons.mp h with rfl | h1
        · exact List.mem_cons_self _ _
        · exact List.mem_cons_of_mem _ (ih h1)

theorem dropBlock_skip_line {m l : List Char} (rest : List (List Char))
    (h : ¬ trimCL l = ['\x7d']) :
    dropBlock m (l :: rest) true = dropBlock m rest true := by
  rw [dropBlock]
  split
  · rfl
  · simp [h]

theorem dropBlock_close_line {m l : List Char} (rest : List (List Char))
    (hp : m.isPrefixOf l = false) (h : trimCL l = ['\x7d']) :
    dropBlock m (l :: rest) true = dropBlock m rest false := by
  rw [dropBlock, if_neg (by simp [hp])]
  simp [h]

theorem scanState_skip_line {m l : List Char} (rest : List (List Char))
    (h : ¬ trimCL l = ['\x7d']) :
    scanState m (l :: rest) true = scanState m rest true := by
  rw [scanState]
  split
  · rfl
  · simp [h]

theorem scanState_close_line {m l : List Char} (rest : List (List Char))
    (hp : m.isPrefixOf l = false) (h : trimCL l = ['\x7d']) :
    scanState m (l :: rest) true = scanState m rest false := by
  rw [scanState, if_neg (by simp [hp])]
  simp [h]

/-! ## Facts about the generated block lines -/

theorem marker_head (p : List Char) : (marker p).head? = some '#' := rfl

theorem marker_isPrefixOf_self (p : List Char) :
    (marker p).isPrefixOf (marker p) = true :=
  List.isPrefixOf_iff_prefix.mpr (List.prefix_refl _)

theorem head_hash_not_prefix_of_self {M l : List Char}
    (hM : M.head? = some '#') (h : M.isPrefixOf l = true) :
    trimLeftCL l = l := by
  obtain ⟨t, rfl⟩ := List.isPrefixOf_iff_prefix.mp h
  cases M with
  | nil => simp at hM
  | cons c r =>
    simp only [List.head?_cons, Option.some.injEq] at hM
    subst hM
    rw [List.cons_append]
    exact trimLeftCL_cons_of_not_ws _ (by decide)

theorem not_isPrefixOf_of_trimLeft {M l : List Char}
    (hM : M.head? = some '#')
    (h : M.isPrefixOf (trimLeftCL l) = false) : M.isPrefixOf l = false := by
  cases hb : M.isPrefixOf l with
  | false => rfl
  | true =>
    have ht := head_hash_not_prefix_of_self hM hb
    rw [ht] at h
    rw [hb] at h
    exact absurd h (by simp)

theorem marker_not_prefix_nil (p : List Char) :
    (marker p).isPrefixOf ([] : List Char) = false := by
  cases hb : (marker p).isPrefixOf ([] : List Char) with
  | false => rfl
  | true =>
    have hp := List.isPrefixOf_iff_prefix.mp hb
    have := List.prefix_nil.mp hp
    have hh := marker_head p
    rw [this] at hh
    simp at hh

theorem marker_not_prefix_brace (p : List Char) :
    (marker p).isPrefixOf ("\x7d".data) = false := by
  cases hb : (marker p).isPrefixOf ("\x7d".data) with
  | false => rfl
  | true =>
    obtain ⟨t, ht⟩ := List.isPrefixOf_iff_prefix.mp hb
    have hh := marker_head p
    rcases hm : marker p with _ | ⟨c, r⟩
    · rw [hm] at hh; simp at hh
    · rw [hm] at hh ht
      simp only [List.head?_cons, Option.some.injEq] at hh
      subst hh
      rw [List.cons_append] at ht
      have h4 := congrArg List.head? ht
      simp at h4

theorem funcLine2_decomp (q : List Char) :
    q ++ "() \x7b".data = (q ++ "() ".data) ++ ['\x7b'] := by
  simp [show "() \x7b".data = "() ".data ++ ['\x7b'] from rfl]

theorem funcLine3_decomp (q : List Char) :
    "    claude-provider use ".data ++ q ++ " \x22$@\x22".data =
      ("    claude-provider use ".data ++ q ++ " \x22$@".data) ++ ['\x22'] := by
  simp [show " \x22$@\x22".data = " \x22$@".data ++ ['\x22'] from rfl]

theorem trimCL_funcLine2_ne (q : List Char) :
    ¬ trimCL (q ++ "() \x7b".data) = ['\x7d'] := by
  rw [funcLine2_decomp, trimCL_snoc _ (by decide)]
  intro h
  have h2 := congrArg List.getLast? h
  rw [List.getLast?_concat] at h2
  exact absurd h2 (by decide)

theorem trimCL_funcLine3_ne (q : List Char) :
    ¬ trimCL ("    claude-provider use ".data ++ q ++ " \x22$@\x22".data) =
      ['\x7d'] := by
  rw [funcLine3_decomp, trimCL_snoc _ (by decide)]
  intro h
  have h2 := congrArg List.getLast? h
  rw [List.getLast?_concat] at h2
  exact absurd h2 (by decide)

theorem trimCL_brace : trimCL ("\x7d".data) = ['\x7d'] := by decide

theorem dropBlock_own_funcLines (p : List Char) :
    dropBlock (marker p) (funcLines p) false = [] ∧
    scanState (marker p) (funcLines p) false = false := by
  rw [funcLines]
  constructor
  · rw [dropBlock, if_pos (by simp [marker_isPrefixOf_self]),
      dropBlock_skip_line _ (trimCL_funcLine2_ne p),
      dropBlock_skip_line _ (trimCL_funcLine3_ne p),
      dropBlock_close_line _ (marker_not_prefix_brace p) trimCL_brace]
    rfl
  · rw [scanState, if_pos (by simp [marker_isPrefixOf_self]),
      scanState_skip_line _ (trimCL_funcLine2_ne p),
      scanState_skip_line _ (trimCL_funcLine3_ne p),
      scanState_close_line _ (marker_not_prefix_brace p) trimCL_brace]
    rfl

/-! ## Unfolding equations for the editor operations -/

theorem append_some (content name : List Char) :
    append_provider_function_to_file (some content) name =
      if cleanedContent (marker name) content = [] then func_content name
      else cleanedContent (marker name) content ++
        '\n' :: '\n' :: func_content name := rfl

theorem remove_some (content name : List Char) :
    remove_provider_function_from_file (some content) name =
      if cleanedContent (marker name) content = [] then .ok none
      else .ok (some (cleanedContent (marker name) content)) := rfl

/-! ## Character facts about the generated block -/

theorem funcLines_char_free {q : List Char} {c : Char} (hq : c ∉ q)
    (h1 : c ∉ "# Provider function for ".data)
    (h2 : c ∉ "() \x7b".data)
    (h3 : c ∉ "    claude-provider use ".data)
    (h4 : c ∉ " \x22$@\x22".data)
    (h5 : c ∉ "\x7d".data) :
    ∀ l ∈ funcLines q, c ∉ l := by
  intro l hl
  rw [funcLines, marker] at hl
  simp only [List.mem_cons, List.not_mem_nil, or_false] at hl
  rcases hl with rfl | rfl | rfl | rfl
  · intro hm
    rcases List.mem_append.mp hm with h | h
    · exact h1 h
    · exact hq h
  · intro hm
    rcases List.mem_append.mp hm with h | h
    · exact hq h
    · exact h2 h
  · intro hm
    rcases List.mem_append.mp hm with h | h
    · rcases List.mem_append.mp h with h' | h'
      · exact h3 h'
      · exact hq h'
    · exact h4 h
  · exact h5

theorem funcLines_ne_nil (q : List Char) : funcLines q ≠ [] := by
  simp [funcLines]

theorem joinNL_funcLines_ne_nil (q : List Char) :
    joinNL (funcLines q) ≠ [] := by
  rw [funcLines]
  intro h
  rw [show joinNL [marker q, q ++ "() \x7b".data,
      "    claude-provider use ".data ++ q ++ " \x22$@\x22".data,
      "\x7d".data] =
    marker q ++ '\n' :: joinNL [q ++ "() \x7b".data,
      "    claude-provider use ".data ++ q ++ " \x22$@\x22".data,
      "\x7d".data] from rfl] at h
  simp at h

theorem map_stripCR_id {L : List (List Char)} (h : ∀ l ∈ L, '\r' ∉ l) :
    L.map stripCR = L := by
  induction L with
  | nil => rfl
  | cons x xs ih =>
    rw [List.map_cons, stripCR_eq_self (h x (List.mem_cons_self _ _)),
      ih (fun l hl => h l (List.mem_cons_of_mem _ hl))]

theorem rustLines_func_content {q : List Char} (hn : '\n' ∉ q)
    (hr : '\r' ∉ q) : rustLines (func_content q) = funcLines q := by
  have hnl : ∀ l ∈ funcLines q, '\n' ∉ l :=
    funcLines_char_free hn (by decide) (by decide) (by decide) (by decide)
      (by decide)
  have hcr : ∀ l ∈ funcLines q, '\r' ∉ l :=
    funcLines_char_free hr (by decide) (by decide) (by decide) (by decide)
      (by decide)
  rw [func_content,
    show joinNL (funcLines q) ++ ['\n'] =
      joinNL (funcLines q) ++ '\n' :: [] from rfl,
    rustLines_append_newline,
    splitNL_joinNL (funcLines_ne_nil q) hnl,
    map_stripCR_id hcr,
    show rustLines ([] : List Char) = [] from rfl,
    List.append_nil]

/-! ## Prefix-freedom is stable under trimming -/

theorem not_isPrefixOf_mono {M y x : List Char} (hyx : y <+: x)
    (h : M.isPrefixOf x = false) : M.isPrefixOf y = false := by
  cases hb : M.isPrefixOf y with
  | false => rfl
  | true =>
    have htr := (List.isPrefixOf_iff_prefix.mp hb).trans hyx
    have h2 := List.isPrefixOf_iff_prefix.mpr htr
    rw [h2] at h
    exact absurd h (by simp)

theorem trimLeftCL_prefix_mono (x : List Char) :
    trimLeftCL (trimRightCL x) <+: trimLeftCL x := by
  obtain ⟨t, ht⟩ := trimRightCL_front x
  by_cases hb : isBlankL (trimRightCL x) = true
  · rw [trimLeftCL_eq_nil_iff.mpr hb]
    exact List.nil_prefix
  · have h2 : trimLeftCL x = trimLeftCL (trimRightCL x) ++ t := by
      conv_lhs => rw [← ht]
      exact trimLeftCL_append_of_not_blank _ (Bool.eq_false_iff.mpr hb)
    rw [h2]
    exact ⟨t, rfl⟩

/-! ## The central lemma: re-scanning an upserted file -/

/-- The remainder the editor keeps, written back together with a fresh
block, survives a second scan unchanged: cleaning
`cleaned ++ "\n\n" ++ func_content` for the same name gives back `cleaned`.
`S` stands for the surviving lines whose join-and-trim produced the
remainder. -/
theorem cleaned_of_append_block (name : List Char) (S : List (List Char))
    (hn : '\n' ∉ name) (hr : '\r' ∉ name)
    (h1 : ∀ l ∈ S, '\n' ∉ l) (h2 : ∀ l ∈ S, '\r' ∉ l)
    (h3 : ∀ l ∈ S, (marker name).isPrefixOf (trimLeftCL l) = false)
    (hne : trimCL (joinNL S) ≠ []) :
    cleanedContent (marker name)
        (trimCL (joinNL S) ++ '\n' :: '\n' :: func_content name) =
      trimCL (joinNL S) := by
  have hcT : trimCL (joinNL S) = joinNL (trimLines S) := trimCL_joinNL S
  have hTne : trimLines S ≠ [] := by
    intro h0
    rw [h0] at hcT
    exact hne (by rw [hcT]; rfl)
  have hT_nl : ∀ l ∈ trimLines S, '\n' ∉ l := fun l hl =>
    mem_trimLines_trans (fun x => '\n' ∉ x) hl h1
      (fun x hx hm => hx ((trimLeftCL_suffix x).sublist.mem hm))
      (fun x hx hm => hx ((trimRightCL_front x).sublist.mem hm))
  have hT_cr : ∀ l ∈ trimLines S, '\r' ∉ l := fun l hl =>
    mem_trimLines_trans (fun x => '\r' ∉ x) hl h2
      (fun x hx hm => hx ((trimLeftCL_suffix x).sublist.mem hm))
      (fun x hx hm => hx ((trimRightCL_front x).sublist.mem hm))
  have hT_pre : ∀ l ∈ trimLines S,
      (marker name).isPrefixOf l = false := by
    intro l hl
    apply not_isPrefixOf_of_trimLeft (marker_head name)
    exact mem_trimLines_trans
      (fun x => (marker name).isPrefixOf (trimLeftCL x) = false) hl h3
      (fun x hx => by
        show (marker name).isPrefixOf (trimLeftCL (trimLeftCL x)) = false
        rw [trimLeftCL_idem]
        exact hx)
      (fun x hx => not_isPrefixOf_mono (trimLeftCL_prefix_mono x) hx)
  have hsplit_c : splitNL (trimCL (joinNL S)) = trimLines S := by
    rw [hcT]
    exact splitNL_joinNL hTne hT_nl
  have hlines : rustLines
      (trimCL (joinNL S) ++ '\n' :: '\n' :: func_content name) =
      trimLines S ++ [[]] ++ funcLines name := by
    rw [rustLines_append_newline, hsplit_c, map_stripCR_id hT_cr,
      show ('\n' :: func_content name) =
        [] ++ '\n' :: func_content name from rfl,
      rustLines_append_newline, rustLines_func_content hn hr,
      show ((splitNL ([] : List Char)).map stripCR) = [[]] from rfl]
    simp
  have hdrop : dropBlock (marker name)
      (trimLines S ++ [[]] ++ funcLines name) false = trimLines S ++ [[]] := by
    rw [List.append_assoc, dropBlock_append,
      (dropBlock_keep_all _ _ hT_pre).1, (dropBlock_keep_all _ _ hT_pre).2,
      show (([[]] : List (List Char)) ++ funcLines name) =
        [] :: funcLines name from rfl,
      dropBlock, if_neg (by simp [marker_not_prefix_nil name])]
    simp only [Bool.false_eq_true, if_false, (dropBlock_own_funcLines name).1]
  rw [cleanedContent, hlines, hdrop, joinNL_append hTne (by simp),
    show joinNL [([] : List Char)] = [] from rfl,
    show joinNL (trimLines S) ++ '\n' :: [] =
      joinNL (trimLines S) ++ ['\n'] from rfl,
    ← hcT, trimCL_append_ws _ (by decide), trimCL_idem]

/-- Cleaning the freshly generated block for its own name removes it all. -/
theorem cleaned_of_func_content (name : List Char) (hn : '\n' ∉ name)
    (hr : '\r' ∉ name) :
    cleanedContent (marker name) (func_content name) = [] := by
  rw [cleanedContent, rustLines_func_content hn hr,
    (dropBlock_own_funcLines name).1]
  rfl

/-! ## The amended editor claims -/

/-- C3 (amended): calling the register upsert twice in succession with the
same name yields function-file content identical to calling it once,
provided the name holds no newline or carriage return, the initial content
holds no carriage return, and no line the scan keeps comes to start with
the marker once its leading whitespace is removed (the counterexample
above shows the claim fails without these provisos). -/
theorem C3_append_idempotent_amended (name content : List Char)
    (hn : '\n' ∉ name) (hr : '\r' ∉ name) (hcr : '\r' ∉ content)
    (hclean : ∀ l ∈ dropBlock (marker name) (rustLines content) false,
      (marker name).isPrefixOf (trimLeftCL l) = false) :
    append_provider_function_to_file
        (some (append_provider_function_to_file (some content) name)) name =
      append_provider_function_to_file (some content) name := by
  have h1 : ∀ l ∈ dropBlock (marker name) (rustLines content) false,
      '\n' ∉ l := fun l hl => (mem_rustLines (mem_dropBlock hl)).1
  have h2 : ∀ l ∈ dropBlock (marker name) (rustLines content) false,
      '\r' ∉ l := fun l hl hm =>
    hcr ((mem_rustLines (mem_dropBlock hl)).2 '\r' hm)
  have hcc : cleanedContent (marker name) content =
      trimCL (joinNL (dropBlock (marker name) (rustLines content) false)) :=
    rfl
  rw [append_some content name]
  by_cases h0 : cleanedContent (marker name) content = []
  · rw [if_pos h0, append_some, cleaned_of_func_content name hn hr,
      if_pos rfl]
  · rw [if_neg h0, append_some]
    have key := cleaned_of_append_block name
      (dropBlock (marker name) (rustLines content) false) hn hr h1 h2 hclean
      (by rw [← hcc]; exact h0)
    rw [← hcc] at key
    rw [key, if_neg h0]

/-- C3 witness: idempotence at the concrete name p over the one-line
content x. -/
theorem C3_witness :
    append_provider_function_to_file
        (some (append_provider_function_to_file (some ("x".data))
          ("p".data))) ("p".data) =
      append_provider_function_to_file (some ("x".data)) ("p".data) :=
  C3_append_idempotent_amended ("p".data) ("x".data) (by decide) (by decide)
    (by decide) (by decide)

/-- C4 (amended): remove(p) after register(p) restores the exact
pre-register content — or deletes the file when that content was empty, so
that p's block was the only content — provided the name holds no newline or
carriage return and the pre-register content holds no carriage return, is
in the editor's normal form (equal to the trim of its newline-joined
lines, so no trailing newline and no surrounding whitespace), and has no
line that starts with p's marker once its leading whitespace is removed
(the counterexample above shows the claim fails without these provisos). -/
theorem C4_register_remove_roundtrip_amended (name X : List Char)
    (hn : '\n' ∉ name) (hr : '\r' ∉ name) (hx : '\r' ∉ X)
    (hnorm : trimCL (joinNL (rustLines X)) = X)
    (hclean : ∀ l ∈ rustLines X,
      (marker name).isPrefixOf (trimLeftCL l) = false) :
    remove_provider_function_from_file
        (some (append_provider_function_to_file (some X) name)) name =
      .ok (if X = [] then none else some X) := by
  have hdX : dropBlock (marker name) (rustLines X) false = rustLines X :=
    (dropBlock_keep_all _ _ (fun l hl =>
      not_isPrefixOf_of_trimLeft (marker_head name) (hclean l hl))).1
  have hclX : cleanedContent (marker name) X = X := by
    rw [cleanedContent, hdX, hnorm]
  rw [append_some]
  by_cases h0 : X = []
  · rw [if_pos (by rw [hclX]; exact h0), remove_some,
      cleaned_of_func_content name hn hr, if_pos rfl, if_pos h0]
  · rw [if_neg (by rw [hclX]; exact h0), hclX, remove_some]
    have h1 : ∀ l ∈ rustLines X, '\n' ∉ l := fun l hl => (mem_rustLines hl).1
    have h2 : ∀ l ∈ rustLines X, '\r' ∉ l := fun l hl hm =>
      hx ((mem_rustLines hl).2 '\r' hm)
    have key := cleaned_of_append_block name (rustLines X) hn hr h1 h2 hclean
      (by rw [hnorm]; exact h0)
    rw [hnorm] at key
    rw [key, if_neg h0, if_neg h0]

/-- C4 witness: remove after register gives back the concrete normal-form
content hello. -/
theorem C4_witness :
    remove_provider_function_from_file
        (some (append_provider_function_to_file (some ("hello".data))
          ("p".data))) ("p".data) = .ok (some ("hello".data)) := by
  have h := C4_register_remove_roundtrip_amended ("p".data) ("hello".data)
    (by decide) (by decide) (by decide) (by decide) (by decide)
  rw [if_neg (show ¬ "hello".data = [] by decide)] at h
  exact h

/-- C2 (amended): upsert or remove for profile p leaves the block of a
differently-named profile q in place — its four generated lines remain a
contiguous run of the file — provided p's marker is not a prefix of q's
block lines (in particular p's name is not a prefix of q's name) and the
scan is outside any block when it reaches q's block (the counterexample
above shows the claim fails when p's name is a prefix of q's). -/
theorem C2_isolation_amended (p q : List Char) (A C : List (List Char))
    (content : List Char)
    (hsplit : rustLines content = A ++ funcLines q ++ C)
    (hA : scanState (marker p) A false = false)
    (hq1 : (marker p).isPrefixOf (marker q) = false)
    (hq2 : (marker p).isPrefixOf (q ++ "() \x7b".data) = false)
    (hq3 : (marker p).isPrefixOf
      ("    claude-provider use ".data ++ q ++ " \x22$@\x22".data) = false) :
    (∃ r, remove_provider_function_from_file (some content) p =
        .ok (some r) ∧ joinNL (funcLines q) <:+: r) ∧
    joinNL (funcLines q) <:+:
      append_provider_function_to_file (some content) p := by
  have hkeepF : ∀ l ∈ funcLines q, (marker p).isPrefixOf l = false := by
    intro l hl
    rw [funcLines] at hl
    simp only [List.mem_cons, List.not_mem_nil, or_false] at hl
    rcases hl with rfl | rfl | rfl | rfl
    · exact hq1
    · exact hq2
    · exact hq3
    · exact marker_not_prefix_brace p
  have hsurv : dropBlock (marker p) (rustLines content) false =
      dropBlock (marker p) A false ++ funcLines q ++
        dropBlock (marker p) C false := by
    rw [hsplit, List.append_assoc, dropBlock_append, hA, dropBlock_append,
      (dropBlock_keep_all _ _ hkeepF).1, (dropBlock_keep_all _ _ hkeepF).2,
      ← List.append_assoc]
  have hMq_blank : isBlankL (marker q) = false := by
    rw [isBlankL,
      show marker q = '#' :: (" Provider function for ".data ++ q) from rfl]
    simp [show isRustWS '#' = false from by decide]
  have hMq_trim : trimLeftCL (marker q) = marker q :=
    head_hash_not_prefix_of_self (marker_head q) (marker_isPrefixOf_self q)
  obtain ⟨A2, hA2⟩ := trimLinesL_append (dropBlock (marker p) A false)
    (marker q)
    ((q ++ "() \x7b".data) ::
      ("    claude-provider use ".data ++ q ++ " \x22$@\x22".data) ::
      "\x7d".data :: dropBlock (marker p) C false)
    hMq_blank hMq_trim
  obtain ⟨C2, hC2⟩ := trimLinesR_append
    (A2 ++ [marker q, q ++ "() \x7b".data,
      "    claude-provider use ".data ++ q ++ " \x22$@\x22".data])
    ("\x7d".data)
    (dropBlock (marker p) C false) (by decide) (by decide)
  have hT : trimLines (dropBlock (marker p) A false ++ funcLines q ++
      dropBlock (marker p) C false) = (A2 ++ funcLines q) ++ C2 := by
    rw [trimLines,
      show dropBlock (marker p) A false ++ funcLines q ++
          dropBlock (marker p) C false =
        dropBlock (marker p) A false ++ marker q ::
          ((q ++ "() \x7b".data) ::
            ("    claude-provider use ".data ++ q ++ " \x22$@\x22".data) ::
            "\x7d".data :: dropBlock (marker p) C false) from by
        rw [funcLines]; simp,
      hA2,
      show A2 ++ marker q ::
          ((q ++ "() \x7b".data) ::
            ("    claude-provider use ".data ++ q ++ " \x22$@\x22".data) ::
            "\x7d".data :: dropBlock (marker p) C false) =
        (A2 ++ [marker q, q ++ "() \x7b".data,
          "    claude-provider use ".data ++ q ++ " \x22$@\x22".data]) ++
          "\x7d".data :: dropBlock (marker p) C false from by simp,
      hC2, funcLines]
    simp
  have hclean_struct : cleanedContent (marker p) content =
      joinNL ((A2 ++ funcLines q) ++ C2) := by
    rw [cleanedContent, hsurv, trimCL_joinNL, hT]
  have hinfix : joinNL (funcLines q) <:+:
      cleanedContent (marker p) content := by
    rw [hclean_struct]
    exact joinNL_infix A2 (funcLines q) C2 (funcLines_ne_nil q)
  have hne : cleanedContent (marker p) content ≠ [] := by
    intro h0
    rw [h0] at hinfix
    exact joinNL_funcLines_ne_nil q (List.infix_nil.mp hinfix)
  refine ⟨⟨cleanedContent (marker p) content, ?_, hinfix⟩, ?_⟩
  · rw [remove_some, if_neg hne]
  · rw [append_some, if_neg hne]
    obtain ⟨s, t, hst⟩ := hinfix
    exact ⟨s, t ++ '\n' :: '\n' :: func_content p, by rw [← hst]; simp⟩

/-- C2 witness: both operations for profile alpha keep the block of the
differently-named profile beta intact. -/
theorem C2_witness :
    (∃ r, remove_provider_function_from_file
        (some (func_content ("beta".data))) ("alpha".data) = .ok (some r) ∧
      joinNL (funcLines ("beta".data)) <:+: r) ∧
    joinNL (funcLines ("beta".data)) <:+:
      append_provider_function_to_file (some (func_content ("beta".data)))
        ("alpha".data) :=
  C2_isolation_amended ("alpha".data) ("beta".data) [] []
    (func_content ("beta".data)) (by decide) rfl (by decide) (by decide)
    (by decide)

end ClaudeProvider
